import Mathlib

/-!
Shallow embedding of the backtracking NFA engine of `src/dfa.rs`
(repository burmudar/rust-grep), together with proofs about it.

The Rust code is translated construct by construct:
* `Matchers` is the two-case matcher enum (`Character` holds the predicate
  closure, `Epsilon` holds nothing);
* `State` owns its name and the ordered list of outgoing transitions, a
  transition being the pair (target state, matcher) exactly as in the Rust
  `Transition { to_state, matcher }` struct;
* `NFAEngine` owns the set of states (a `HashSet` keyed by state name in
  Rust: modelled as a list carrying at most one state per name, with all
  accesses going through name equality), the initial-state name and the
  ending-state names;
* Rust panics are modelled by `Option` (`none` = panic), and the
  `compute` search loop is modelled literally as a fuel-indexed loop over
  an explicit stack, `none` meaning "fuel exhausted".  `compute` runs the
  loop with a fuel that is proved sufficient (`loopFuel_isSome`), so the
  fuel is an artifact of the embedding, not of the Rust loop.
-/

namespace RustGrep

/-- Matcher enum of `dfa.rs` (`enum Matchers`): a character predicate or an
epsilon move.  The Rust predicate is an `Rc<dyn Fn(char) -> bool>` closure;
it is modelled as a Lean function `Char → Bool`. -/
inductive Matchers where
  | Character (p : Char → Bool)
  | Epsilon

/-- Rust `Matchers::new_char`: equality test against a literal character. -/
def Matchers.new_char (c : Char) : Matchers :=
  .Character (fun other => c == other)

/-- Rust `Matchers::new_epsilon`. -/
def Matchers.new_epsilon : Matchers := .Epsilon

/-- Rust `Matchers::is_epsilon`. -/
def Matchers.is_epsilon : Matchers → Bool
  | .Character _ => false
  | .Epsilon => true

/-- Rust `Matchers::name`: the coarse tag used for logging and for the
loop-guard memory. -/
def Matchers.name : Matchers → String
  | .Character _ => "Character"
  | .Epsilon => "Epsilon"

/-- Rust `Matchers::matches`: an epsilon always matches; a character matcher
matches iff the input has a character at `pos` (Rust
`input.chars().nth(pos)`) and the predicate holds for it. -/
def Matchers.matches (m : Matchers) (input : String) (pos : Nat) : Bool :=
  match m with
  | .Epsilon => true
  | .Character p =>
    match input.data.get? pos with
    | some c => p c
    | none => false

/-- Rust `struct State` of `dfa.rs`: a name plus the ordered list of outgoing
transitions; `start_groups`/`end_groups` are the latent, unused group tags.
A transition is the pair (target state, matcher), as in the Rust
`Transition` struct; since `Transition` embeds a full `State`, the type is
recursive. -/
inductive State where
  | mk (name : String) (transitions : List (State × Matchers))
      (start_groups : List String) (end_groups : List String)

/-- Rust `struct Transition { to_state: State, matcher: Matchers }`. -/
abbrev Transition := State × Matchers

/-- Field `to_state` of a transition. -/
def Transition.to_state (t : Transition) : State := t.1

/-- Field `matcher` of a transition. -/
def Transition.matcher (t : Transition) : Matchers := t.2

/-- Field accessor for `State::name`. -/
def State.name : State → String
  | .mk n _ _ _ => n

/-- Field accessor for `State::transitions`. -/
def State.transitions : State → List Transition
  | .mk _ ts _ _ => ts

/-- Field accessor for `State::start_groups`. -/
def State.start_groups : State → List String
  | .mk _ _ sg _ => sg

/-- Field accessor for `State::end_groups`. -/
def State.end_groups : State → List String
  | .mk _ _ _ eg => eg

/-- Rust `State::new`: a fresh state with the given name and no transitions. -/
def State.new (name : String) : State := .mk name [] [] []

/-- Rust `State::add_transition`: push `(to_state, matcher)` at the END of the
transition list (Rust `Vec::push`). -/
def State.add_transition (s : State) (to_state : State) (m : Matchers) : State :=
  .mk s.name (s.transitions ++ [(to_state, m)]) s.start_groups s.end_groups

/-- Rust `State::unshift_transition`: insert `(to_state, matcher)` at position 0
of the transition list (Rust `Vec::insert(0, _)`). -/
def State.unshift_transition (s : State) (to_state : State) (m : Matchers) : State :=
  .mk s.name ((to_state, m) :: s.transitions) s.start_groups s.end_groups

/-- Rust `struct EngineState` of `dfa.rs`: one search-branch state of the
explicit-stack search — input offset, current state name, and the epsilon
memory (`Vec<String>` of matcher names seen since the last consumed
character). -/
structure EngineState where
  pos : Nat
  state : String
  memory : List String

/-- Rust `struct NFAEngine`: the `HashSet<State>` (keyed by name) is modelled
as a list accessed exclusively through name equality. -/
structure NFAEngine where
  states : List State
  initial_state : String
  ending_states : List String

/-- Rust `NFAEngine::new`: one registered state, which is also initial. -/
def NFAEngine.new (initial : String) : NFAEngine :=
  { states := [State.new initial], initial_state := initial, ending_states := [] }

/-- Rust `NFAEngine::state_len`. -/
def NFAEngine.state_len (e : NFAEngine) : Nat := e.states.length

/-- Rust `NFAEngine::has_state`: `HashSet::contains` with name-keyed equality. -/
def NFAEngine.has_state (e : NFAEngine) (s : String) : Bool :=
  e.states.any (fun t => t.name == s)

/-- Rust `NFAEngine::get_state`: `HashSet::get` with name-keyed equality. -/
def NFAEngine.get_state (e : NFAEngine) (n : String) : Option State :=
  e.states.find? (fun t => t.name == n)

/-- Rust `NFAEngine::add_state`: `HashSet::insert` — if a state of that name is
already present the set is unchanged and `false` is returned (the old
element is kept); otherwise the fresh state is inserted and `true` is
returned. -/
def NFAEngine.add_state (e : NFAEngine) (s : String) : NFAEngine × Bool :=
  if e.has_state s then (e, false)
  else ({ e with states := State.new s :: e.states }, true)

/-- Rust `NFAEngine::declare_states_with_names`. -/
def NFAEngine.declare_states_with_names (e : NFAEngine) (names : List String) : NFAEngine :=
  names.foldl (fun acc n => (acc.add_state n).1) e

/-- Rust `NFAEngine::new_with_states`. -/
def NFAEngine.new_with_states (initial : String) (names : List String) : NFAEngine :=
  (NFAEngine.new initial).declare_states_with_names names

/-- Rust `NFAEngine::set_initial_state`: panics (`none`) when the state is not
registered. -/
def NFAEngine.set_initial_state (e : NFAEngine) (s : String) : Option NFAEngine :=
  if e.has_state s then some { e with initial_state := s } else none

/-- Loop body of Rust `NFAEngine::set_ending_states` for one element `s` of
the slice `names`: add the state when missing, then clear the ending list
and push all of `names` (the Rust code performs the clear-and-refill inside
the outer loop, so the net effect of each iteration is to reset
`ending_states` to `names`). -/
def sesStep (names : List String) (acc : NFAEngine) (s : String) : NFAEngine :=
  { (if acc.has_state s then acc else (acc.add_state s).1) with ending_states := names }

/-- Rust `NFAEngine::set_ending_states`: iterate `sesStep` over the slice;
with an empty `names` the loop body never runs and nothing changes. -/
def NFAEngine.set_ending_states (e : NFAEngine) (names : List String) : NFAEngine :=
  names.foldl (sesStep names) e

/-- Rust `NFAEngine::is_ending_state`. -/
def NFAEngine.is_ending_state (e : NFAEngine) (s : String) : Bool :=
  e.ending_states.contains s

/-- Rust `HashSet::take` keyed by name: remove and return the (unique) state of
that name, together with the remaining states. -/
def takeState : List State → String → Option (State × List State)
  | [], _ => none
  | s :: rest, n =>
    if s.name == n then some (s, rest)
    else
      match takeState rest n with
      | some (t, rest2) => some (t, s :: rest2)
      | none => none

/-- Rust `NFAEngine::add_transition`: take the `from` state out of the set,
append the transition `(State::new(to), matcher)` to it and re-insert it;
panics (`none`) with "state not found" when `from` is not registered. -/
def NFAEngine.add_transition (e : NFAEngine) (from_ to_ : String) (m : Matchers) :
    Option NFAEngine :=
  match takeState e.states from_ with
  | some (s, rest) =>
    some { e with states := s.add_transition (State.new to_) m :: rest }
  | none => none

/-- Rust `NFAEngine::unshift_transition`: `if let Some(s) = take(..)` — when
`from` is not registered the `if let` silently falls through and the
engine is returned UNCHANGED (no panic, unlike `add_transition`). -/
def NFAEngine.unshift_transition (e : NFAEngine) (from_ to_ : State) (m : Matchers) :
    NFAEngine :=
  match takeState e.states from_.name with
  | some (s, rest) => { e with states := s.unshift_transition to_ m :: rest }
  | none => e

/-- One candidate successor of `NFAEngine::compute`'s inner loop: `none`
when the matcher does not match, or when the epsilon loop-guard fires
(the branch memory already contains this matcher's NAME — the coarse tag
string, `"Epsilon"` for every epsilon edge).  An epsilon successor keeps
the offset and extends the memory with the tag; a character successor
advances the offset and resets the memory to empty. -/
def succOf (input : String) (cur : EngineState) (t : Transition) : Option EngineState :=
  if t.matcher.matches input cur.pos then
    if t.matcher.is_epsilon then
      if cur.memory.contains t.matcher.name then none
      else some ⟨cur.pos, t.to_state.name, cur.memory ++ [t.matcher.name]⟩
    else some ⟨cur.pos + 1, t.to_state.name, []⟩
  else none

/-- All successors pushed for one popped search state, listed in POP order:
the Rust loop iterates transitions in reverse index order and pushes onto a
LIFO stack, so the lowest-index transition ends on top; with the stack
modelled head-first, the successor list is the transitions in declaration
order, filtered by `succOf`.  A state name with no registered state
contributes no transitions (Rust uses `&[]`). -/
def successors (e : NFAEngine) (input : String) (cur : EngineState) : List EngineState :=
  (match e.get_state cur.state with
   | some s => s.transitions
   | none => []).filterMap (succOf input cur)

/-- The `while let Some(current) = stack.pop()` loop of
`NFAEngine::compute`, indexed by fuel (`none` = fuel ran out; the Rust
loop has no fuel, and `loopFuel_isSome` below proves the fuel below is
never exhausted).  Popping an ending state returns `true`; an emptied
stack returns `false`; otherwise the popped state's successors are pushed. -/
def loopFuel (e : NFAEngine) (input : String) : Nat → List EngineState → Option Bool
  | 0, _ => none
  | _ + 1, [] => some false
  | n + 1, cur :: rest =>
    if e.is_ending_state cur.state then some true
    else loopFuel e input n (successors e input cur ++ rest)

/-- The initial search state pushed by `compute`: offset 0, initial state,
empty epsilon memory. -/
def initState (e : NFAEngine) : EngineState :=
  ⟨0, e.initial_state, []⟩

/-- Weight of one search state for the termination measure: consuming a
character strictly shrinks `input.length + 1 - pos`, and an epsilon move
at fixed offset moves the memory bit from 1 to 0 (an epsilon successor is
only pushed when `"Epsilon"` is not yet in the memory, and it always puts
`"Epsilon"` into the memory). -/
def rank (input : String) (es : EngineState) : Nat :=
  2 * (input.data.length + 1 - es.pos) + (if es.memory.contains "Epsilon" then 0 else 1)

/-- Strict bound on the number of successors any single pop can push:
one more than the longest transition list in the engine. -/
def transBound (e : NFAEngine) : Nat :=
  1 + (e.states.map (fun s => s.transitions.length)).foldr max 0

/-- Termination measure of a whole stack: each search state weighs
`transBound ^ rank`, so replacing a popped state by at most
`transBound - 1` successors of strictly smaller rank strictly shrinks the
sum. -/
def stackMeasure (e : NFAEngine) (input : String) (stack : List EngineState) : Nat :=
  (stack.map (fun es => transBound e ^ rank input es)).sum

/-- Fuel that `loopFuel_isSome` proves sufficient for the whole search. -/
def fuelBound (e : NFAEngine) (input : String) : Nat :=
  stackMeasure e input [initState e] + 1

/-- Rust `NFAEngine::compute` — the acceptance decision (`decide` in the spec's
vocabulary).  The `getD false` is never exercised: `loopFuel_isSome`
proves the loop returns `some` within `fuelBound` steps. -/
def NFAEngine.compute (e : NFAEngine) (input : String) : Bool :=
  (loopFuel e input (fuelBound e input) [initState e]).getD false

/-! ### Concrete engines used by the scenario claims -/

/-- Scenario A engine (the `compute` unit test of `dfa.rs`): states
q0..q3, initial q0, accepting q3; q0→q1 on 'a', q1→q2 on 'b', q2→q3
epsilon, added in that order. -/
def engineA : NFAEngine :=
  (((((NFAEngine.new_with_states "q0" ["q0", "q1", "q2", "q3"]).set_ending_states
      ["q3"]).add_transition "q0" "q1" (Matchers.new_char 'a')).bind
      (fun e => e.add_transition "q1" "q2" (Matchers.new_char 'b'))).bind
      (fun e => e.add_transition "q2" "q3" Matchers.new_epsilon)).getD (NFAEngine.new "q0")

/-- Engine with two DISTINCT epsilon edges in sequence: states q0,q1,q2,
initial q0, accepting q2; q0→q1 epsilon, q1→q2 epsilon.  The path
q0 →ε q1 →ε q2 takes each epsilon edge exactly once. -/
def engineEps : NFAEngine :=
  ((((NFAEngine.new_with_states "q0" ["q0", "q1", "q2"]).set_ending_states
      ["q2"]).add_transition "q0" "q1" Matchers.new_epsilon).bind
      (fun e => e.add_transition "q1" "q2" Matchers.new_epsilon)).getD (NFAEngine.new "q0")

/-! ### Spec-modelled variants (for comparison with the code) -/

/-- Search-branch state for the spec's recommended loop-guard: the memory
holds (source-state name, target-state name) pairs identifying the epsilon
edges taken since the last consumed character. -/
structure EngineStatePE where
  pos : Nat
  state : String
  memoryPE : List (String × String)

/-- Modelled from the spec: "key the guard by a composite of (source-state
identity, target-state identity) for the epsilon edge being considered,
stored in a set carried per search branch, cleared whenever input is
consumed" — the per-edge analogue of `succOf`, present in the spec's words
only, not in `src/dfa.rs`. -/
def succOfPerEdge (input : String) (cur : EngineStatePE) (t : Transition) :
    Option EngineStatePE :=
  if t.matcher.matches input cur.pos then
    if t.matcher.is_epsilon then
      if (cur.state, t.to_state.name) ∈ cur.memoryPE then none
      else some ⟨cur.pos, t.to_state.name, cur.memoryPE ++ [(cur.state, t.to_state.name)]⟩
    else some ⟨cur.pos + 1, t.to_state.name, []⟩
  else none

/-- Modelled from the spec: the search loop with the per-edge loop-guard
of `succOfPerEdge` (fuel-indexed; used only to evaluate the spec's
recommended behavior on concrete engines). -/
def loopFuelPerEdge (e : NFAEngine) (input : String) :
    Nat → List EngineStatePE → Option Bool
  | 0, _ => none
  | _ + 1, [] => some false
  | n + 1, cur :: rest =>
    if e.is_ending_state cur.state then some true
    else
      loopFuelPerEdge e input n
        (((match e.get_state cur.state with
           | some s => s.transitions
           | none => []).filterMap (succOfPerEdge input cur)) ++ rest)

/-! ### Helper lemmas -/

/-- Boolean list containment agrees with membership for strings. -/
lemma contains_iff_mem (l : List String) (a : String) : l.contains a = true ↔ a ∈ l := by
  simp [List.contains, List.elem_iff]

/-- Every member of a list of naturals is bounded by its `foldr max 0`. -/
lemma le_foldr_max {l : List Nat} {x : Nat} (h : x ∈ l) : x ≤ l.foldr max 0 := by
  induction l with
  | nil => cases h
  | cons a t ih =>
    rcases List.mem_cons.mp h with rfl | h2
    · exact le_max_left _ _
    · exact le_trans (ih h2) (le_max_right _ _)

/-- A list sum is bounded by length times a uniform bound on the elements. -/
lemma sum_le_length_mul {l : List Nat} {K : Nat} (h : ∀ x ∈ l, x ≤ K) :
    l.sum ≤ l.length * K := by
  induction l with
  | nil => simp
  | cons a t ih =>
    have ha := h a (List.mem_cons_self a t)
    have ht := ih (fun x hx => h x (List.mem_cons_of_mem a hx))
    simp only [List.sum_cons, List.length_cons]
    calc a + t.sum ≤ K + t.length * K := Nat.add_le_add ha ht
      _ = (t.length + 1) * K := by ring

/-- An epsilon matcher's name is the tag string "Epsilon". -/
lemma name_of_is_epsilon {m : Matchers} (h : m.is_epsilon = true) : m.name = "Epsilon" := by
  cases m with
  | Character p => simp [Matchers.is_epsilon] at h
  | Epsilon => rfl

/-- Adding a transition to a state does not change its name. -/
lemma add_transition_name (s to2 : State) (m : Matchers) :
    (s.add_transition to2 m).name = s.name := rfl

/-- Unshifting a transition onto a state does not change its name. -/
lemma unshift_transition_name (s to2 : State) (m : Matchers) :
    (s.unshift_transition to2 m).name = s.name := rfl

/-! ### Termination measure lemmas -/

/-- Every successor produced by `succOf` has strictly smaller `rank`: a
character move advances the offset (which requires a character to exist at
the offset), an epsilon move flips the memory bit from 1 to 0. -/
lemma rank_lt_of_succOf {input : String} {cur es : EngineState} {t : Transition}
    (h : succOf input cur t = some es) : rank input es < rank input cur := by
  unfold succOf at h
  by_cases hm : t.matcher.matches input cur.pos = true
  · rw [if_pos hm] at h
    by_cases he : t.matcher.is_epsilon = true
    · rw [if_pos he] at h
      by_cases hc : cur.memory.contains t.matcher.name = true
      · rw [if_pos hc] at h; cases h
      · rw [if_neg hc] at h
        cases h
        rw [name_of_is_epsilon he] at hc
        have h1 : (cur.memory ++ [t.matcher.name]).contains "Epsilon" = true := by
          refine (contains_iff_mem _ _).mpr ?_
          rw [name_of_is_epsilon he]
          simp
        have h2 : cur.memory.contains "Epsilon" = false := by
          rwa [Bool.not_eq_true] at hc
        simp only [rank, h1, h2, Bool.false_eq_true, if_true, if_false]
        omega
    · rw [if_neg he] at h
      cases h
      have hchar : ∃ p, t.matcher = .Character p := by
        cases hmm : t.matcher with
        | Character p => exact ⟨p, rfl⟩
        | Epsilon => rw [hmm] at he; simp [Matchers.is_epsilon] at he
      obtain ⟨p, hp⟩ := hchar
      rw [hp] at hm
      have hlt : cur.pos < input.data.length := by
        by_contra hge
        rw [Matchers.matches, List.get?_eq_none.mpr (by omega)] at hm
        cases hm
      have hnil : (([] : List String)).contains "Epsilon" = false := rfl
      simp only [rank, hnil, Bool.false_eq_true, if_false]
      have step : 2 * (input.data.length + 1 - (cur.pos + 1)) + 1
          < 2 * (input.data.length + 1 - cur.pos) := by omega
      exact lt_of_lt_of_le step (Nat.le_add_right _ _)
  · rw [if_neg hm] at h; cases h

/-- The number of successors of one pop is at most `transBound - 1`. -/
lemma successors_length_le (e : NFAEngine) (input : String) (cur : EngineState) :
    (successors e input cur).length ≤ transBound e - 1 := by
  unfold successors
  cases hg : e.get_state cur.state with
  | none => simp
  | some s =>
    have hmem : s ∈ e.states := List.mem_of_find?_eq_some hg
    have h1 : s.transitions.length ≤ (e.states.map (fun u => u.transitions.length)).foldr max 0 :=
      le_foldr_max (List.mem_map_of_mem _ hmem)
    have h2 := List.length_filterMap_le (succOf input cur) s.transitions
    show (s.transitions.filterMap (succOf input cur)).length ≤ transBound e - 1
    unfold transBound
    omega

/-- Members of `successors` have strictly smaller rank than the popped
search state. -/
lemma rank_lt_of_mem_successors {e : NFAEngine} {input : String} {cur es : EngineState}
    (h : es ∈ successors e input cur) : rank input es < rank input cur := by
  unfold successors at h
  rcases List.mem_filterMap.mp h with ⟨t, _, ht⟩
  exact rank_lt_of_succOf ht

/-- Key step: replacing the popped search state by its successors strictly
decreases the stack measure. -/
lemma stackMeasure_succ_lt (e : NFAEngine) (input : String) (cur : EngineState)
    (rest : List EngineState) :
    stackMeasure e input (successors e input cur ++ rest) <
      stackMeasure e input (cur :: rest) := by
  have hB : 1 ≤ transBound e := Nat.le_add_right 1 _
  simp only [stackMeasure, List.map_append, List.sum_append, List.map_cons, List.sum_cons]
  have key : ((successors e input cur).map (fun es => transBound e ^ rank input es)).sum
      < transBound e ^ rank input cur := by
    cases hs : successors e input cur with
    | nil => simpa using pow_pos (lt_of_lt_of_le one_pos hB) (rank input cur)
    | cons s0 ss =>
      have hmem0 : s0 ∈ successors e input cur := by rw [hs]; exact List.mem_cons_self _ _
      have h0 : rank input s0 < rank input cur := rank_lt_of_mem_successors hmem0
      have hr : 1 ≤ rank input cur := by omega
      have hbound : ∀ x ∈ (s0 :: ss).map (fun es => transBound e ^ rank input es),
          x ≤ transBound e ^ (rank input cur - 1) := by
        intro x hx
        rcases List.mem_map.mp hx with ⟨es, hes, rfl⟩
        have : rank input es < rank input cur :=
          rank_lt_of_mem_successors (by rw [hs]; exact hes)
        exact Nat.pow_le_pow_right hB (by omega)
      have hsum := sum_le_length_mul hbound
      have hlen : ((s0 :: ss).map (fun es => transBound e ^ rank input es)).length
          ≤ transBound e - 1 := by
        rw [List.length_map, ← hs]
        exact successors_length_le e input cur
      have hpos : 0 < transBound e ^ (rank input cur - 1) :=
        pow_pos (lt_of_lt_of_le one_pos hB) _
      calc ((s0 :: ss).map (fun es => transBound e ^ rank input es)).sum
          ≤ ((s0 :: ss).map (fun es => transBound e ^ rank input es)).length
              * transBound e ^ (rank input cur - 1) := hsum
        _ ≤ (transBound e - 1) * transBound e ^ (rank input cur - 1) :=
            Nat.mul_le_mul_right _ hlen
        _ < transBound e * transBound e ^ (rank input cur - 1) :=
            (Nat.mul_lt_mul_right hpos).mpr (by omega)
        _ = transBound e ^ (rank input cur - 1 + 1) := by rw [pow_succ]; ring
        _ = transBound e ^ rank input cur := by congr 1; omega
  omega

/-- Master loop lemma: with any two fuels above the stack measure, the loop
returns the same answer, and that answer is `some` (never fuel exhaustion). -/
lemma loopFuel_stable (e : NFAEngine) (input : String) :
    ∀ n stack, stackMeasure e input stack < n →
      ∀ m, stackMeasure e input stack < m →
        loopFuel e input n stack = loopFuel e input m stack ∧
          (loopFuel e input n stack).isSome = true := by
  intro n
  induction n using Nat.strong_induction_on with
  | _ n ih =>
    intro stack hn m hm
    cases n with
    | zero => omega
    | succ n2 =>
      cases m with
      | zero => omega
      | succ m2 =>
        cases stack with
        | nil => simp [loopFuel]
        | cons cur rest =>
          cases hend : e.is_ending_state cur.state with
          | true => simp [loopFuel, hend]
          | false =>
            have hdec := stackMeasure_succ_lt e input cur rest
            have hstep := ih n2 (Nat.lt_succ_self n2) (successors e input cur ++ rest)
              (by omega) m2 (by omega)
            simp only [loopFuel, hend, Bool.false_eq_true, if_false]
            exact hstep

/-- The fuel `fuelBound` is always sufficient: the search loop of `compute`
reaches a verdict. -/
lemma loopFuel_isSome (e : NFAEngine) (input : String) :
    (loopFuel e input (fuelBound e input) [initState e]).isSome = true :=
  (loopFuel_stable e input (fuelBound e input) [initState e]
    (by unfold fuelBound; omega) (fuelBound e input) (by unfold fuelBound; omega)).2

/-! ### Lemmas about the name-keyed state set -/

/-- Rust `HashSet::take` fails exactly when no state of that name is
registered. -/
lemma takeState_none_iff (l : List State) (n : String) :
    takeState l n = none ↔ l.any (fun s => s.name == n) = false := by
  induction l with
  | nil => simp [takeState]
  | cons s rest ih =>
    by_cases h : (s.name == n) = true
    · simp [takeState, h]
    · rw [takeState, if_neg h]
      cases ht : takeState rest n with
      | some p =>
        have hany : rest.any (fun s => s.name == n) = true := by
          rcases Bool.eq_false_or_eq_true (rest.any (fun s => s.name == n)) with htr | hf
          · exact htr
          · rw [ih.mpr hf] at ht; cases ht
        simp [List.any_cons, hany]
      | none =>
        have hany : rest.any (fun s => s.name == n) = false := ih.mp ht
        simp [List.any_cons, hany, h]

/-- What Rust `HashSet::take` returns: the taken state carries the searched
name, the set shrinks by one, and name-membership splits into the taken
state plus the remainder. -/
lemma takeState_some {l : List State} {n : String} {s : State} {rest : List State}
    (h : takeState l n = some (s, rest)) :
    (s.name == n) = true ∧ l.length = rest.length + 1 ∧
      ∀ x : String, l.any (fun u => u.name == x)
        = ((s.name == x) || rest.any (fun u => u.name == x)) := by
  induction l generalizing s rest with
  | nil => simp [takeState] at h
  | cons a t ih =>
    by_cases ha : (a.name == n) = true
    · rw [takeState, if_pos ha] at h
      simp only [Option.some.injEq, Prod.mk.injEq] at h
      obtain ⟨rfl, rfl⟩ := h
      exact ⟨ha, rfl, fun x => by simp [List.any_cons]⟩
    · rw [takeState, if_neg ha] at h
      cases ht : takeState t n with
      | none => rw [ht] at h; cases h
      | some p =>
        obtain ⟨s2, rest2⟩ := p
        rw [ht] at h
        simp only [Option.some.injEq, Prod.mk.injEq] at h
        obtain ⟨rfl, rfl⟩ := h
        obtain ⟨h1, h2, h3⟩ := ih ht
        refine ⟨h1, by simp [h2], fun x => ?_⟩
        simp only [List.any_cons, h3 x]
        exact Bool.or_left_comm _ _ _

/-- Rust `HashSet::take` agrees with `HashSet::get` on the taken state. -/
lemma takeState_find? {l : List State} {n : String} {s : State} {rest : List State}
    (h : takeState l n = some (s, rest)) :
    l.find? (fun u => u.name == n) = some s := by
  induction l generalizing s rest with
  | nil => simp [takeState] at h
  | cons a t ih =>
    by_cases ha : (a.name == n) = true
    · rw [takeState, if_pos ha] at h
      simp only [Option.some.injEq, Prod.mk.injEq] at h
      obtain ⟨rfl, rfl⟩ := h
      simp [List.find?, ha]
    · rw [takeState, if_neg ha] at h
      cases ht : takeState t n with
      | none => rw [ht] at h; cases h
      | some p =>
        obtain ⟨s2, rest2⟩ := p
        rw [ht] at h
        simp only [Option.some.injEq, Prod.mk.injEq] at h
        obtain ⟨rfl, rfl⟩ := h
        have hf : (a.name == n) = false := by rwa [Bool.not_eq_true] at ha
        simp [List.find?, hf, ih ht]

/-! ### Lemmas about `set_ending_states` -/

/-- One `sesStep` never removes a registered state. -/
lemma has_state_sesStep {e : NFAEngine} {nm : String} (names : List String) (s : String)
    (h : e.has_state nm = true) : (sesStep names e s).has_state nm = true := by
  unfold sesStep
  by_cases hs : e.has_state s = true
  · rw [if_pos hs]
    exact h
  · rw [if_neg hs]
    unfold NFAEngine.add_state
    rw [if_neg hs]
    show (State.new s :: e.states).any (fun t => t.name == nm) = true
    unfold NFAEngine.has_state at h
    simp only [List.any_cons, h]
    simp

/-- One `sesStep` registers its own element. -/
lemma has_state_sesStep_self (e : NFAEngine) (names : List String) (s : String) :
    (sesStep names e s).has_state s = true := by
  unfold sesStep
  by_cases hs : e.has_state s = true
  · rw [if_pos hs]
    exact hs
  · rw [if_neg hs]
    unfold NFAEngine.add_state
    rw [if_neg hs]
    show (State.new s :: e.states).any (fun t => t.name == s) = true
    simp [List.any_cons, State.new, State.name]

/-- Folding `sesStep` never removes a registered state. -/
lemma has_state_sesFold {e : NFAEngine} {nm : String} (names l : List String)
    (h : e.has_state nm = true) : (l.foldl (sesStep names) e).has_state nm = true := by
  induction l generalizing e with
  | nil => exact h
  | cons a t ih => exact ih (has_state_sesStep names a h)

/-- After folding `sesStep` over `l`, every element of `l` is registered. -/
lemma has_state_sesFold_mem (e : NFAEngine) (names l : List String) :
    ∀ x ∈ l, (l.foldl (sesStep names) e).has_state x = true := by
  induction l generalizing e with
  | nil => intro x hx; cases hx
  | cons a t ih =>
    intro x hx
    rcases List.mem_cons.mp hx with rfl | hx2
    · exact has_state_sesFold names t (has_state_sesStep_self e names x)
    · exact ih (sesStep names e a) x hx2

/-- A nonempty fold of `sesStep` ends with `ending_states = names`. -/
lemma ending_states_sesFold (e : NFAEngine) (names : List String) :
    ∀ l : List String, l ≠ [] → (l.foldl (sesStep names) e).ending_states = names := by
  intro l
  induction l generalizing e with
  | nil => intro hne; cases hne rfl
  | cons a t ih =>
    intro _
    cases t with
    | nil => rfl
    | cons b t2 => exact ih (sesStep names e a) (by simp)

/-- Modelled from the spec: "Unshift transition(from, to, matcher):
inserts (to, matcher) at position 0 of from's transition list. Same
existence contract as above", i.e. it fails ("state not found") when
`from` does not exist — the failure case is `none`, mirroring how
`add_transition` models its panic. -/
def NFAEngine.unshift_transition_spec (e : NFAEngine) (from_ to_ : State) (m : Matchers) :
    Option NFAEngine :=
  match takeState e.states from_.name with
  | some (s, rest) => some { e with states := s.unshift_transition to_ m :: rest }
  | none => none

/-! ### Claim theorems -/

/-- C2: for every engine (graph) and every input string, including the
empty one, the decision loop of `compute` reaches a boolean verdict — the
explicit-stack search with the epsilon-memory loop-guard (reset whenever a
character is consumed) never runs forever, epsilon self-loops and epsilon
cycles included: the loop, run with the explicit fuel `fuelBound`, always
returns `some` boolean, and `compute` returns that boolean. -/
theorem c2_compute_terminates (e : NFAEngine) (input : String) :
    ∃ b : Bool, loopFuel e input (fuelBound e input) [initState e] = some b ∧
      e.compute input = b := by
  rcases Option.isSome_iff_exists.mp (loopFuel_isSome e input) with ⟨b, hb⟩
  refine ⟨b, hb, ?_⟩
  unfold NFAEngine.compute
  rw [hb]
  rfl

/-- C3: Scenario A — states q0..q3, initial q0, accepting q3, transitions
q0→q1 on 'a', q1→q2 on 'b', q2→q3 epsilon, added in that order:
`compute "ab"` is true, `compute "a"` is false, `compute "abc"` is true
(trailing input after reaching an accepting state is ignored) and
`compute "aabbbbbb"` is false. -/
theorem c3_scenario_a :
    engineA.compute "ab" = true ∧ engineA.compute "a" = false ∧
      engineA.compute "abc" = true ∧ engineA.compute "aabbbbbb" = false := by
  refine ⟨?_, ?_, ?_, ?_⟩ <;> decide

/-- Any sufficient fuel gives the loop the same verdict, namely the one
`compute` returns. -/
lemma loopFuel_eq_some_compute (e : NFAEngine) (input : String) (n : Nat)
    (hn : fuelBound e input ≤ n) :
    loopFuel e input n [initState e] = some (e.compute input) := by
  have hlt : stackMeasure e input [initState e] < n := by
    unfold fuelBound at hn
    omega
  have hst := loopFuel_stable e input n [initState e] hlt (fuelBound e input)
    (by unfold fuelBound; omega)
  rcases Option.isSome_iff_exists.mp (loopFuel_isSome e input) with ⟨b, hb⟩
  rw [hst.1, hb]
  unfold NFAEngine.compute
  rw [hb]
  rfl

/-- C8: the decision is deterministic and repeatable — two runs of the
search loop on the same engine and the same input (with any two sufficient
resource bounds) return the same boolean, the one `compute` returns; the
embedding of `compute` is a pure function of the engine (the Rust method
takes `&self` and touches no interior mutability), so the engine's states,
transitions, initial state and accepting states are unchanged by a call. -/
theorem c8_compute_deterministic (e : NFAEngine) (input : String) (n m : Nat)
    (hn : fuelBound e input ≤ n) (hm : fuelBound e input ≤ m) :
    loopFuel e input n [initState e] = some (e.compute input) ∧
      loopFuel e input m [initState e] = some (e.compute input) :=
  ⟨loopFuel_eq_some_compute e input n hn, loopFuel_eq_some_compute e input m hm⟩

/-- Witness for C8 at a concrete engine, input and pair of fuels. -/
theorem c8_compute_deterministic_witness :
    loopFuel engineA "ab" 200 [initState engineA] = some (engineA.compute "ab") ∧
      loopFuel engineA "ab" 300 [initState engineA] = some (engineA.compute "ab") :=
  c8_compute_deterministic engineA "ab" 200 300 (by decide) (by decide)

/-- C9: if the engine's initial-state name is among the accepting-state
names, `compute` returns true on every input: acceptance is tested when a
search state is popped, before any input character is examined or any
transition is tried. -/
theorem c9_initial_accepting (e : NFAEngine) (input : String)
    (h : e.is_ending_state e.initial_state = true) : e.compute input = true := by
  unfold NFAEngine.compute fuelBound
  simp only [loopFuel, initState, h, if_true]
  rfl

/-- Witness for C9: an engine whose initial state q0 is accepting accepts
the input "xyz" (and would accept any other input). -/
theorem c9_initial_accepting_witness :
    ((NFAEngine.new "q0").set_ending_states ["q0"]).compute "xyz" = true :=
  c9_initial_accepting ((NFAEngine.new "q0").set_ending_states ["q0"]) "xyz" (by decide)

/-- C1 counterexample: `engineEps` has two DIFFERENT epsilon edges,
q0→q1 and q1→q2, with q2 accepting.  Were the loop-guard keyed by the
transition itself (so that an epsilon successor is skipped only when that
same edge was already taken since the last consumed character), the path
q0 →ε q1 →ε q2 — which takes each edge once — would be explored and the
empty input accepted, as the spec-modelled per-edge search
`loopFuelPerEdge` indeed does; the code's `compute` instead returns false,
because after taking q0→ε→q1 the branch memory holds the global tag
"Epsilon" and the different edge q1→ε→q2 is suppressed by the guard. -/
theorem c1_per_edge_guard_counterexample :
    engineEps.compute "" = false ∧
      loopFuelPerEdge engineEps "" 10 [⟨0, engineEps.initial_state, []⟩] = some true := by
  refine ⟨?_, ?_⟩ <;> decide

/-- C1 amended: the epsilon loop-guard of `compute` is keyed ONLY by the
global matcher tag — for every epsilon transition `t`, on every search
branch, the successor through `t` is suppressed exactly when the branch
memory already contains the tag string "Epsilon", regardless of which
epsilon edge put the tag there and regardless of the edge's source or
target state. -/
theorem c1_guard_keyed_by_tag_only (input : String) (cur : EngineState) (t : Transition)
    (h : t.matcher.is_epsilon = true) :
    (succOf input cur t = none ↔ cur.memory.contains "Epsilon" = true) := by
  cases hm : t.matcher with
  | Character p => rw [hm] at h; simp [Matchers.is_epsilon] at h
  | Epsilon =>
    unfold succOf
    rw [hm]
    simp only [Matchers.matches, Matchers.is_epsilon, Matchers.name, if_true]
    by_cases hc : cur.memory.contains "Epsilon" = true
    · simp [hc]
    · simp [hc]

/-- Witness for the amended C1 at a concrete branch state and epsilon
edge: the edge q1→q2 was never taken on the branch, yet its successor is
suppressed because the memory holds the tag left by a different edge. -/
theorem c1_guard_keyed_by_tag_only_witness :
    (succOf "" ⟨0, "q1", ["Epsilon"]⟩ (State.new "q2", Matchers.Epsilon) = none ↔
      (["Epsilon"] : List String).contains "Epsilon" = true) :=
  c1_guard_keyed_by_tag_only "" ⟨0, "q1", ["Epsilon"]⟩ (State.new "q2", Matchers.Epsilon) rfl

/-- C6: `State::add_transition` appends the pair `(to, matcher)` at the
END of the source state's transition list (lowest priority) and
`State::unshift_transition` inserts it at position 0 (highest priority);
in both cases every previously added transition is preserved in its
existing relative order (the old list is an unchanged prefix, resp. an
unchanged suffix, of the new one). -/
theorem c6_transition_order (s to2 : State) (m : Matchers) :
    (s.add_transition to2 m).transitions = s.transitions ++ [(to2, m)] ∧
      (s.unshift_transition to2 m).transitions = (to2, m) :: s.transitions ∧
      (s.add_transition to2 m).transitions.take s.transitions.length = s.transitions ∧
      (s.unshift_transition to2 m).transitions.drop 1 = s.transitions := by
  refine ⟨rfl, rfl, ?_, rfl⟩
  show (s.transitions ++ [(to2, m)]).take s.transitions.length = s.transitions
  exact List.take_left _ _

/-- C4 counterexample: with `from` = "zz" not registered, the claim says
BOTH transition operations fail with a fatal "state not found" error; the
spec-faithful `unshift_transition_spec` indeed fails (`none`), but the
code's `unshift_transition` returns normally with the engine unchanged —
its `if let` has no failing arm, so no error of any kind is raised. -/
theorem c4_unshift_silently_ignores_missing_state :
    (NFAEngine.new "q0").unshift_transition_spec (State.new "zz") (State.new "q1")
        Matchers.Epsilon = none ∧
      (NFAEngine.new "q0").unshift_transition (State.new "zz") (State.new "q1")
        Matchers.Epsilon = NFAEngine.new "q0" :=
  ⟨rfl, rfl⟩

/-- C4 amended: `add_transition` fails (fatal "state not found", modelled
`none`) exactly when the source state is not registered — and in that case
no transition is added anywhere, since the panic aborts before any
mutation; `unshift_transition`, by contrast, never fails: when the source
state is not registered it silently returns the engine unchanged. -/
theorem c4_transition_missing_state (e : NFAEngine) (from_ to_ : String)
    (fs ts : State) (m : Matchers) :
    (e.add_transition from_ to_ m = none ↔ e.has_state from_ = false) ∧
      (e.has_state fs.name = false → e.unshift_transition fs ts m = e) := by
  constructor
  · unfold NFAEngine.add_transition NFAEngine.has_state
    rw [← takeState_none_iff]
    cases ht : takeState e.states from_ with
    | none => simp
    | some p =>
      obtain ⟨s, rest⟩ := p
      simp [ht]
  · intro hmiss
    unfold NFAEngine.unshift_transition
    have hnone : takeState e.states fs.name = none := by
      refine (takeState_none_iff _ _).mpr ?_
      unfold NFAEngine.has_state at hmiss
      exact hmiss
    rw [hnone]

/-- Witness for the amended C4 at a concrete engine with "zz" missing. -/
theorem c4_transition_missing_state_witness :
    ((NFAEngine.new "q0").add_transition "zz" "q1" Matchers.Epsilon = none ↔
      (NFAEngine.new "q0").has_state "zz" = false) ∧
      (NFAEngine.new "q0").unshift_transition (State.new "zz") (State.new "q1")
        Matchers.Epsilon = NFAEngine.new "q0" :=
  ⟨(c4_transition_missing_state (NFAEngine.new "q0") "zz" "q1" (State.new "zz")
      (State.new "q1") Matchers.Epsilon).1,
    (c4_transition_missing_state (NFAEngine.new "q0") "zz" "q1" (State.new "zz")
      (State.new "q1") Matchers.Epsilon).2 rfl⟩

/-- C5: inserting a state whose name collides with a registered state is a
no-op — the engine (hence the existing state and all its accumulated
transitions) is returned unchanged, with insertion flag `false`; and a
graph mutation targeting an existing state preserves that state's identity:
after `add_transition`, looking the source state up again finds exactly the
previously registered state with the new transition appended (nothing
already added is lost). -/
theorem c5_existing_state_preserved :
    (∀ (e : NFAEngine) (nm : String), e.has_state nm = true → e.add_state nm = (e, false)) ∧
      (∀ (e : NFAEngine) (from_ to_ : String) (m : Matchers) (e2 : NFAEngine) (s : State),
        e.add_transition from_ to_ m = some e2 → e.get_state from_ = some s →
          e2.get_state from_ = some (s.add_transition (State.new to_) m)) := by
  constructor
  · intro e nm h
    unfold NFAEngine.add_state
    rw [if_pos h]
  · intro e from_ to_ m e2 s hadd hget
    unfold NFAEngine.add_transition at hadd
    cases ht : takeState e.states from_ with
    | none => rw [ht] at hadd; cases hadd
    | some p =>
      obtain ⟨s0, rest⟩ := p
      rw [ht] at hadd
      simp only [Option.some.injEq] at hadd
      subst hadd
      have hfind := takeState_find? ht
      unfold NFAEngine.get_state at hget
      rw [hfind] at hget
      simp only [Option.some.injEq] at hget
      subst hget
      show (s0.add_transition (State.new to_) m :: rest).find? (fun u => u.name == from_)
          = some (s0.add_transition (State.new to_) m)
      have hname : ((s0.add_transition (State.new to_) m).name == from_) = true := by
        rw [add_transition_name]
        exact (takeState_some ht).1
      simp [List.find?, hname]

/-- Witness for C5: re-adding "q0" is a no-op, and after adding a
transition out of "q0" the lookup finds the old state with the transition
appended. -/
theorem c5_existing_state_preserved_witness :
    (NFAEngine.new "q0").add_state "q0" = (NFAEngine.new "q0", false) ∧
      (((NFAEngine.new "q0").add_transition "q0" "q1" Matchers.Epsilon).getD
          (NFAEngine.new "q0")).get_state "q0"
        = some ((State.new "q0").add_transition (State.new "q1") Matchers.Epsilon) :=
  ⟨c5_existing_state_preserved.1 (NFAEngine.new "q0") "q0" rfl,
    c5_existing_state_preserved.2 (NFAEngine.new "q0") "q0" "q1" Matchers.Epsilon
      (((NFAEngine.new "q0").add_transition "q0" "q1" Matchers.Epsilon).getD
        (NFAEngine.new "q0"))
      (State.new "q0") rfl rfl⟩

/-- C7: `set_initial_state` stops with a fatal error (modelled `none`)
exactly when the name is not a declared state, and succeeds otherwise;
`set_ending_states` is a total function that never fails, auto-creates
every accepting name not yet present (each passed name is registered
afterwards), and — for a nonempty list of names — afterwards the
accepting-state names are exactly the passed names, so each of them
corresponds to a registered State. -/
theorem c7_initial_and_ending_contracts (e : NFAEngine) (nm : String) (names : List String) :
    (e.set_initial_state nm = none ↔ e.has_state nm = false) ∧
      (e.has_state nm = true → e.set_initial_state nm = some { e with initial_state := nm }) ∧
      (∀ x ∈ names, (e.set_ending_states names).has_state x = true) ∧
      (names ≠ [] → (e.set_ending_states names).ending_states = names) := by
  refine ⟨?_, ?_, ?_, ?_⟩
  · unfold NFAEngine.set_initial_state
    by_cases h : e.has_state nm = true
    · simp [h]
    · simp [h]
  · intro h
    unfold NFAEngine.set_initial_state
    rw [if_pos h]
  · intro x hx
    exact has_state_sesFold_mem e names names x hx
  · intro hne
    exact ending_states_sesFold e names names hne

/-- Witness for C7 at a concrete engine: initial state "q0" is accepted,
and setting accepting states ["a", "b"] registers "b" and records the
list. -/
theorem c7_initial_and_ending_contracts_witness :
    ((NFAEngine.new "q0").set_initial_state "q0"
        = some { NFAEngine.new "q0" with initial_state := "q0" }) ∧
      ((NFAEngine.new "q0").set_ending_states ["a", "b"]).has_state "b" = true ∧
      ((NFAEngine.new "q0").set_ending_states ["a", "b"]).ending_states = ["a", "b"] :=
  ⟨(c7_initial_and_ending_contracts (NFAEngine.new "q0") "q0" ["a", "b"]).2.1 rfl,
    (c7_initial_and_ending_contracts (NFAEngine.new "q0") "q0" ["a", "b"]).2.2.1 "b"
      (by simp),
    (c7_initial_and_ending_contracts (NFAEngine.new "q0") "q0" ["a", "b"]).2.2.2
      (by simp)⟩

/-- C10: when the source state exists, `add_transition` leaves the set of
registered state names (hence `has_state` for every name, in particular an
unregistered target name) and the state count unchanged — the target is
stored only embedded inside the new transition, never registered. -/
theorem c10_add_transition_frame (e : NFAEngine) (from_ to_ : String) (m : Matchers)
    (e2 : NFAEngine) (h : e.add_transition from_ to_ m = some e2) :
    e2.state_len = e.state_len ∧ ∀ nm : String, e2.has_state nm = e.has_state nm := by
  unfold NFAEngine.add_transition at h
  cases ht : takeState e.states from_ with
  | none => rw [ht] at h; cases h
  | some p =>
    obtain ⟨s0, rest⟩ := p
    rw [ht] at h
    simp only [Option.some.injEq] at h
    subst h
    obtain ⟨h1, h2, h3⟩ := takeState_some ht
    constructor
    · show (s0.add_transition (State.new to_) m :: rest).length = e.states.length
      simp [h2]
    · intro nm
      show (s0.add_transition (State.new to_) m :: rest).any (fun u => u.name == nm)
          = e.states.any (fun u => u.name == nm)
      rw [h3 nm]
      simp [List.any_cons, add_transition_name]

/-- Witness for C10: adding a transition from "q0" to the unregistered
name "zz" keeps the state count at 1 and leaves "zz" unregistered. -/
theorem c10_add_transition_frame_witness :
    (((NFAEngine.new "q0").add_transition "q0" "zz" Matchers.Epsilon).getD
        (NFAEngine.new "q0")).state_len = (NFAEngine.new "q0").state_len ∧
      (((NFAEngine.new "q0").add_transition "q0" "zz" Matchers.Epsilon).getD
        (NFAEngine.new "q0")).has_state "zz" = (NFAEngine.new "q0").has_state "zz" :=
  ⟨(c10_add_transition_frame (NFAEngine.new "q0") "q0" "zz" Matchers.Epsilon
      (((NFAEngine.new "q0").add_transition "q0" "zz" Matchers.Epsilon).getD
        (NFAEngine.new "q0")) rfl).1,
    (c10_add_transition_frame (NFAEngine.new "q0") "q0" "zz" Matchers.Epsilon
      (((NFAEngine.new "q0").add_transition "q0" "zz" Matchers.Epsilon).getD
        (NFAEngine.new "q0")) rfl).2 "zz"⟩

end RustGrep
